import Mathlib

/-!
# devs-manager: verified model of the sync / classification / analytics core

A shallow embedding, in Lean 4, of the parts of the `devs-manager` code base
that its specification makes checkable claims about:

* `src/services/internal/preprocessing/commit_type_detector.py`
  (`HeuristicCommitClassifier.detect`) — keyword classifier;
* `src/api/routes/stats.py` (`_calc_dqi`) — Developer Quality Index;
* `src/services/internal/rate_limiter.py` (`RateLimiter._refill_tokens`);
* `src/services/internal/process.py` (`process_single_commit`);
* `src/services/internal/sync_orchestrator.py`
  (`SyncOrchestrator.sync_repository`, `_process_commits_parallel`);
* `src/api/routes/team.py` (`sync_team_repos`, `_deep_merge`,
  `_sync_repository_background`) and
  `src/adapters/db/repositories/sync_session_repo.py`.

Python floats are modelled by exact rationals (`ℚ`), Python ints by `ℤ`/`ℕ`,
Python dicts by association lists in insertion order (Python dicts preserve
insertion order and never hold duplicate keys), stateful code by explicit
state passing, raised exceptions by `Except`.  Concurrency inside a worker
pool is modelled by an arbitrary processing order (`order` parameter): the
pool drains a whole partition before the enclosing code continues, which is
exactly what the `with ThreadPoolExecutor ... as_completed` block enforces.
-/

/-! ## JSON values

Python objects coming out of `json.loads` / GitHub responses: the shapes the
merge function and truthiness tests need.  Objects are association lists in
insertion order. -/

inductive Json where
  | null : Json
  | bool (b : Bool) : Json
  | num (q : ℚ) : Json
  | str (s : String) : Json
  | arr (elems : List Json) : Json
  | obj (fields : List (String × Json)) : Json
deriving Repr

abbrev Fields := List (String × Json)

/-- Python truthiness (`bool(x)`) of a JSON value: `None`, `False`, `0`, `""`,
`[]`, `{}` are falsy. -/
def jsonTruthy : Json → Bool
  | Json.null => false
  | Json.bool b => b
  | Json.num q => decide (q ≠ 0)
  | Json.str s => decide (s ≠ "")
  | Json.arr xs => !xs.isEmpty
  | Json.obj fs => !fs.isEmpty

/-! ## Commit classifier
(`HeuristicCommitClassifier.detect`, commit_type_detector.py lines 11-35)

The settings subtree `commit_classification` is a dict
`{default_category, rules}` where each rule is a dict
`{name, category, keywords, priority}`; we embed those shapes as records.
`detect` begins `matched_rule = default_category` (a *string*) and, on a
keyword hit with strictly higher priority, executes `matched_rule = rule`
(the whole rule *dict*).  The union of those two value shapes is
`MatchedValue`.  `commit_type`, `is_conventional` are the two outputs the
claims are about; the remaining outputs of `detect` are independent of these
and are not needed here. -/

structure Rule where
  name : String
  category : String
  keywords : List String
  priority : Int
deriving DecidableEq, Repr

structure CommitRules where
  /-- value of `commit_rules.get("default_category", "NO CATEGORY")` -/
  default_category : String
  /-- value of `commit_rules.get("rules", [])` -/
  rules : List Rule
deriving DecidableEq, Repr

/-- The two shapes the Python local `matched_rule` (and hence `category`,
`commit_type`) can take: the `default_category` string, or an entire rule
dict. -/
inductive MatchedValue where
  | cat (s : String)
  | ruleObj (r : Rule)
deriving DecidableEq, Repr

/-- Python substring test `needle in hay`. -/
def strContains (hay needle : String) : Bool :=
  decide (List.IsInfix needle.data hay.data)

/-- Python `str.lower()` (ASCII range; every keyword and message considered
here is ASCII). -/
def pyLower (s : String) : String :=
  String.mk (s.data.map Char.toLower)

/-- The double loop of `detect` (lines 21-26): for every rule, for every
keyword, if `keyword.lower() in msg` and `rule.get("priority", 0) >
highest_priority` then track `(rule, priority)`.  The accumulator starts at
`(default_category, -1)`. -/
def detectScan (msg : String) (rules : List Rule) (dc : String) : MatchedValue × Int :=
  rules.foldl
    (fun acc rule =>
      rule.keywords.foldl
        (fun acc2 kw =>
          if strContains msg (pyLower kw) then
            if acc2.2 < rule.priority then (MatchedValue.ruleObj rule, rule.priority)
            else acc2
          else acc2)
        acc)
    (MatchedValue.cat dc, -1)

/-- Python `category != "NO CATEGORY"` where `category` may be a string or a
rule dict (a dict compares unequal to any string). -/
def pyNeNoCategory : MatchedValue → Bool
  | MatchedValue.cat s => decide (s ≠ "NO CATEGORY")
  | MatchedValue.ruleObj _ => true

structure DetectResult where
  commit_type : MatchedValue
  is_conventional : Bool
deriving DecidableEq, Repr

/-- Embeds `detect` (the `commit_type` / `is_conventional` part): lowercase the whole
message, run the scan, return `commit_type = matched_rule` and
`is_conventional = (category != "NO CATEGORY")`. -/
def detect (message : String) (cr : CommitRules) : DetectResult :=
  let msg := pyLower message
  let matched := (detectScan msg cr.rules cr.default_category).1
  { commit_type := matched
    is_conventional := pyNeNoCategory matched }

/-- The classifier the claim (and spec §4.5 step 1) describes: the *category
string* of the highest-priority matching rule (ties to the first rule in the
array), scanning the lowercased first message line; `default_category` when
nothing matches. -/
def claimedCommitType (message : String) (cr : CommitRules) : String :=
  let firstLine := pyLower (String.mk (message.data.takeWhile (fun c => c ≠ '\n')))
  let best := cr.rules.foldl
    (fun (acc : Option Rule × Int) rule =>
      if rule.keywords.any (fun kw => strContains firstLine (pyLower kw)) then
        if acc.2 < rule.priority then (some rule, rule.priority) else acc
      else acc)
    (none, -1)
  match best.1 with
  | some r => r.category
  | none => cr.default_category

/-- Embeds `DEFAULT_ANALYSIS_CONFIG["commit_classification"]` from
`src/api/routes/team.py` lines 214-227. -/
def defaultCommitRules : CommitRules :=
  { default_category := "other"
    rules :=
      [ { name := "Feature", category := "feat",
          keywords := ["feat", "add", "new", "implement", "introduce"], priority := 95 }
      , { name := "Bugfix", category := "fix",
          keywords := ["fix", "bug", "patch", "resolve", "repair"], priority := 99 }
      , { name := "Performance", category := "perf",
          keywords := ["perf", "performance", "optimize", "speed"], priority := 85 }
      , { name := "Refactor", category := "refactor",
          keywords := ["refactor", "restructure", "rework", "reorganize", "simplify"], priority := 80 }
      , { name := "Tests", category := "test",
          keywords := ["test", "spec", "coverage"], priority := 75 }
      , { name := "Docs", category := "docs",
          keywords := ["docs", "doc", "readme", "changelog", "document"], priority := 70 }
      , { name := "Chore", category := "chore",
          keywords := ["chore", "build", "ci", "cd", "deps", "upgrade", "bump"], priority := 60 }
      , { name := "Style", category := "style",
          keywords := ["style", "format", "lint", "prettier", "whitespace"], priority := 55 }
      , { name := "Revert", category := "revert",
          keywords := ["revert", "rollback"], priority := 90 } ] }

/-- The `Bugfix` rule of the default configuration. -/
def bugfixRule : Rule :=
  { name := "Bugfix", category := "fix",
    keywords := ["fix", "bug", "patch", "resolve", "repair"], priority := 99 }

/-! ## Developer Quality Index (`_calc_dqi`, stats.py lines 44-72) -/

/-- Embeds `FEATURE_TYPES = {"feat", "perf", "refactor"}` (stats.py line 23). -/
def FEATURE_TYPES : List String := ["feat", "perf", "refactor"]

/-- Python `round` on exact values: round half to even (banker's rounding).
Python rounds binary floats; we model the idealised exact-arithmetic
behaviour over `ℚ`. -/
def roundHalfEven (q : ℚ) : ℤ :=
  let f := ⌊q⌋
  let r := q - (f : ℚ)
  if r < 1/2 then f
  else if 1/2 < r then f + 1
  else if f % 2 = 0 then f else f + 1

/-- Python `round(x, 1)`: one decimal digit. -/
def roundTo1 (q : ℚ) : ℚ :=
  (roundHalfEven (10 * q) : ℚ) / 10

/-- Embeds `_calc_dqi`: the dict `commits_by_type` is read through `.get(t, 0)`, so
it is modelled as a total count function.  `total_additions` is accepted and
ignored, exactly as in the source. -/
def calc_dqi (commits_by_type : String → ℕ) (total_commits : ℕ)
    (total_additions : ℕ) (significant_commits : ℕ) : ℚ :=
  if total_commits = 0 then 0
  else
    let feat_count : ℚ := ((FEATURE_TYPES.map commits_by_type).sum : ℕ)
    let fix_count : ℚ := (commits_by_type "fix" : ℕ)
    let functional_ratio : ℚ := feat_count / (total_commits : ℚ)
    let denominator : ℚ := feat_count + fix_count
    let bug_rate : ℚ := if 0 < denominator then fix_count / denominator else 0
    let significant_ratio : ℚ := (significant_commits : ℚ) / (total_commits : ℚ)
    let dqi := (functional_ratio * 0.5 + (1 - bug_rate) * 0.3 + significant_ratio * 0.2) * 100
    roundTo1 (min dqi 100)

/-- The DQI formula exactly as the claim words it: `feat` sums the counts for
feat, perf, refactor; `fix` is the fix count; `bug_rate = fix/(feat+fix)`
and `0` when `feat+fix = 0`; result `(0.5·fr + 0.3·(1−br) + 0.2·sr)·100`
rounded to one decimal and clamped to at most 100; `0` when
`total_commits = 0`. -/
def dqiClaim (commits_by_type : String → ℕ) (total_commits : ℕ)
    (significant_commits : ℕ) : ℚ :=
  if total_commits = 0 then 0
  else
    let feat : ℕ := commits_by_type "feat" + commits_by_type "perf" + commits_by_type "refactor"
    let fix : ℕ := commits_by_type "fix"
    let functional_ratio : ℚ := (feat : ℚ) / (total_commits : ℚ)
    let bug_rate : ℚ := if feat + fix = 0 then 0 else (fix : ℚ) / ((feat : ℚ) + (fix : ℚ))
    let significant_ratio : ℚ := (significant_commits : ℚ) / (total_commits : ℚ)
    min (roundTo1 ((0.5 * functional_ratio + 0.3 * (1 - bug_rate) + 0.2 * significant_ratio) * 100)) 100

/-! ## Rate limiter (`RateLimiter`, rate_limiter.py)

`__init__` stores `self.max_requests = max_requests - reserve_tokens` (the
capacity) and `self.time_window = time_window_seconds`.  `_refill_tokens`
computes `elapsed = now - last_refill` and refills only `if elapsed >= 1`;
the refill amount is `int(elapsed * (capacity / window))` (truncation toward
zero, equal to the floor for the non-negative values that arise), capped with
`min(capacity, tokens + add)`. -/

/-- Python `int(q)`: truncation toward zero. -/
def pyInt (q : ℚ) : ℤ :=
  if 0 ≤ q then ⌊q⌋ else ⌈q⌉

/-- Capacity of the bucket: `max_requests - reserve_tokens` (rate_limiter.py
line 27). -/
def rlCapacity (max_requests reserve_tokens : ℤ) : ℤ :=
  max_requests - reserve_tokens

/-- Embeds `_refill_tokens` (lines 57-72), as a function of the elapsed wall-clock
time and the current token count; returns the new token count. -/
def refillTokens (max_requests time_window reserve_tokens : ℤ)
    (elapsed : ℚ) (tokens : ℤ) : ℤ :=
  if 1 ≤ elapsed then
    let refill_rate : ℚ := ((rlCapacity max_requests reserve_tokens : ℤ) : ℚ) / (time_window : ℚ)
    let tokens_to_add : ℤ := pyInt (elapsed * refill_rate)
    min (rlCapacity max_requests reserve_tokens) (tokens + tokens_to_add)
  else tokens

/-- The refill step exactly as the claim words it, for *every* elapsed time:
`min(capacity, tokens + ⌊e · capacity / window⌋)` (the claim's
`max_requests` is the retained-reserve-adjusted attribute, i.e. the
capacity). -/
def claimedRefill (max_requests time_window reserve_tokens : ℤ)
    (elapsed : ℚ) (tokens : ℤ) : ℤ :=
  min (rlCapacity max_requests reserve_tokens)
    (tokens + ⌊elapsed * (((rlCapacity max_requests reserve_tokens : ℤ) : ℚ) / (time_window : ℚ))⌋)

/-! ## Per-commit worker (`process_single_commit`, process.py lines 318-439)

The worker first checks
`if "author" not in commit_json or not commit_json["author"]` and returns
`{"created": False, "sha": commit_json["sha"]}` when it holds (lines
350-351).  Otherwise it fetches the full commit, runs the enrichment
pipeline and persists commit, details and files, finally returning
`{"created": True, "sha": sha}` — any exception in that remainder
propagates to the caller.  The remainder is modelled by an oracle `body`
that yields either success or a raised exception message, together with the
side effects (forge fetch, row writes) it would perform; the early-return
path performs none of them. -/

/-- Side effects of the non-skip path of `process_single_commit`. -/
inductive Eff where
  | fetchDetail (sha : String)
  | createCommit (sha : String)
  | updateDetails (sha : String)
  | bulkCreateFiles (sha : String)
deriving DecidableEq, Repr

/-- The list-endpoint record for one commit, restricted to the fields the
claims depend on: `sha`, the value of the `"author"` key (`none` when the
key is absent), and the parsed `commit.author.date` (`none` when missing or
unparsable). -/
structure CommitJson where
  sha : String
  author : Option Json
  date : Option Int
deriving Repr

structure ProcResult where
  created : Bool
  sha : String
deriving DecidableEq, Repr

/-- Embeds `process_single_commit`: the author guard of lines 350-351, then the
oracle for the fetch/enrich/persist remainder (lines 353-439). -/
def processSingleCommit (body : CommitJson → Except String Unit × List Eff)
    (c : CommitJson) : Except String ProcResult × List Eff :=
  if c.author.isNone || !jsonTruthy (c.author.getD Json.null) then
    (Except.ok { created := false, sha := c.sha }, [])
  else
    match body c with
    | (Except.ok _, effs) => (Except.ok { created := true, sha := c.sha }, effs)
    | (Except.error e, effs) => (Except.error e, effs)

/-! ## Sync orchestrator (`SyncOrchestrator`, sync_orchestrator.py) -/

/-- The `SyncProgress.current_phase` values (sync_orchestrator.py line 21; the
source string `"initializing"` is spelt `initial` here). -/
inductive Phase where
  | initial
  | fetching_list
  | processing_sprint
  | processing_archive
  | complete
deriving DecidableEq, Repr

/-- The `SyncProgress` dataclass (fields the claims are about; `total_pages`,
`processed_pages`, `start_time` omitted as no claim mentions them). -/
structure SyncProgress where
  total_commits : ℕ := 0
  processed_commits : ℕ := 0
  current_phase : Phase := Phase.initial
  sprint_commits_done : Bool := false
  errors : List String := []
deriving DecidableEq, Repr

/-- The error entry appended for a failed commit:
`f"Commit {sha[:7]}: {str(e)}"` (sync_orchestrator.py line 312). -/
def commitErrorEntry (sha msg : String) : String :=
  "Commit " ++ String.mk (sha.data.take 7) ++ ": " ++ msg

/-- Accumulator for the `as_completed` loop of `_process_commits_parallel`:
the shared progress, the local `new_count`, and the list of progress
snapshots handed to `_notify_progress` during the loop. -/
structure PcpState where
  prog : SyncProgress
  newCount : ℕ
  trace : List SyncProgress
deriving Repr

/-- One completed future (sync_orchestrator.py lines 298-314): on success
increment `processed_commits` (and `new_count` if `created`); on exception
append `commitErrorEntry` to the errors, increment `processed_commits`,
continue.  A snapshot is emitted either way. -/
def pcpStep (body : CommitJson → Except String Unit × List Eff)
    (st : PcpState) (c : CommitJson) : PcpState :=
  match (processSingleCommit body c).1 with
  | Except.ok r =>
    let prog := { st.prog with processed_commits := st.prog.processed_commits + 1 }
    { prog := prog
      newCount := st.newCount + (if r.created then 1 else 0)
      trace := st.trace ++ [prog] }
  | Except.error e =>
    let prog := { st.prog with
      errors := st.prog.errors ++ [commitErrorEntry c.sha e]
      processed_commits := st.prog.processed_commits + 1 }
    { prog := prog
      newCount := st.newCount
      trace := st.trace ++ [prog] }

/-- Embeds `_process_commits_parallel` (lines 241-316): filter out already-existing
SHAs, drain the filtered commits through the pool (the completion order is
an arbitrary `order` applied to the filtered list), and return the final
progress, the snapshot trace, `new_count` and `skipped_count`. -/
def processCommitsParallel (body : CommitJson → Except String Unit × List Eff)
    (order : List CommitJson → List CommitJson)
    (commits : List CommitJson) (existing : List String)
    (prog : SyncProgress) : SyncProgress × List SyncProgress × ℕ × ℕ :=
  let filtered := commits.filter (fun c => !existing.contains c.sha)
  let toProcess := order filtered
  let st := toProcess.foldl (pcpStep body) { prog := prog, newCount := 0, trace := [] }
  (st.prog, st.trace, st.newCount, commits.length - filtered.length)

/-- The sprint/archive split of `sync_repository` (lines 117-131): a commit
with a parsable date goes to sprint iff `commit_date >= sprint_cutoff`;
commits with a missing or unparsable date go to archive. -/
def sprintPartOf (cutoff : Int) (commits : List CommitJson) : List CommitJson :=
  commits.filter (fun c => match c.date with
    | some d => decide (cutoff ≤ d)
    | none => false)

def archivePartOf (cutoff : Int) (commits : List CommitJson) : List CommitJson :=
  commits.filter (fun c => match c.date with
    | some d => decide (d < cutoff)
    | none => true)

/-- Result dict of `sync_repository` (lines 172-179). -/
structure SyncOutcome where
  total_commits : ℕ
  processed_commits : ℕ
  sprint_commits : ℕ
  archive_commits : ℕ
  new_commits : ℕ
  errors : List String
deriving DecidableEq, Repr

/-- Embeds `sync_repository` (lines 65-179) for an already-fetched commit list:
phase `fetching_list` + snapshot; split; `total_commits` + snapshot;
(contributor preparation touches no progress state and is omitted);
phase `processing_sprint` + snapshot; drain sprint; `sprint_commits_done :=
true` + snapshot; phase `processing_archive` + snapshot; drain archive;
phase `complete` + snapshot.  Returns the result dict, the final progress
and the full snapshot trace. -/
def syncRepository (body : CommitJson → Except String Unit × List Eff)
    (order : List CommitJson → List CommitJson)
    (allCommits : List CommitJson) (cutoff : Int) (existing : List String) :
    SyncOutcome × SyncProgress × List SyncProgress :=
  let p1 : SyncProgress := { current_phase := Phase.fetching_list }
  let sprint := sprintPartOf cutoff allCommits
  let archive := archivePartOf cutoff allCommits
  let p2 := { p1 with total_commits := allCommits.length }
  let p3 := { p2 with current_phase := Phase.processing_sprint }
  let sprintRes := processCommitsParallel body order sprint existing p3
  let p5 := { sprintRes.1 with sprint_commits_done := true }
  let p6 := { p5 with current_phase := Phase.processing_archive }
  let archiveRes := processCommitsParallel body order archive existing p6
  let p8 := { archiveRes.1 with current_phase := Phase.complete }
  ({ total_commits := allCommits.length
     processed_commits := p8.processed_commits
     sprint_commits := sprint.length
     archive_commits := archive.length
     new_commits := sprintRes.2.2.1 + archiveRes.2.2.1
     errors := p8.errors }
   , p8
   , [p1, p2, p3] ++ sprintRes.2.1 ++ [p5, p6] ++ archiveRes.2.1 ++ [p8])

/-- The `SyncStatus` enumeration (adapters/db/models/sync_session.py). -/
inductive SyncStatus where
  | queued
  | running
  | completed
  | failed
  | cancelled
deriving DecidableEq, Repr

/-- Embeds `_sync_repository_background` (team.py lines 649-744): mark running, run
the orchestrator, finalize as `completed` with the outcome's error list and
`new_commits`; any exception escaping the orchestrator (modelled here: the
commit-list fetch of phase 1) marks the session `failed`.  Returns the
terminal status, the persisted error list and `new_commits`. -/
def syncRepositoryBackground (fetched : Except String (List CommitJson))
    (body : CommitJson → Except String Unit × List Eff)
    (order : List CommitJson → List CommitJson)
    (cutoff : Int) (existing : List String) :
    SyncStatus × List String × ℕ :=
  match fetched with
  | Except.error e => (SyncStatus.failed, ["Failed to fetch commits: " ++ e], 0)
  | Except.ok commits =>
    let r := syncRepository body order commits cutoff existing
    (SyncStatus.completed, r.1.errors, r.1.new_commits)

/-! ## Sync dispatch route (`sync_team_repos`, team.py lines 563-646)

The database state visible to the route: teams (with their `manager_id`),
the per-user stored GitHub tokens, team-linked repositories and sync-session
rows.  Session ids are allocated by an autoincrement counter. -/

structure TeamRow where
  id : ℕ
  manager_id : ℕ
deriving DecidableEq, Repr

structure RepoRow where
  id : ℕ
  team_id : ℕ
deriving DecidableEq, Repr

structure SessionRow where
  id : ℕ
  team_id : ℕ
  repository_id : ℕ
  status : SyncStatus
deriving DecidableEq, Repr

structure AppDb where
  teams : List TeamRow
  github_tokens : List (ℕ × String)
  repos : List RepoRow
  sessions : List SessionRow
  next_session_id : ℕ
deriving DecidableEq, Repr

/-- The `HTTPException`s the route can raise. -/
inductive ApiError where
  | notFound (detail : String)
  | badRequest (detail : String)
  | tooManyRequests (detail : String)
deriving DecidableEq, Repr

/-- Embeds `SyncSessionRepository.get_active_by_team` (sync_session_repo.py lines
76-90): sessions of the team in status `queued` or `running`. -/
def getActiveByTeam (db : AppDb) (team_id : ℕ) : List SessionRow :=
  db.sessions.filter (fun s =>
    s.team_id == team_id && (s.status == SyncStatus.queued || s.status == SyncStatus.running))

/-- The loop of team.py lines 614-620: `sync_repo.create_session(team_id,
repository_id=repo.id)` creates one `queued` row per repository, ids from
the autoincrement counter. -/
def mkSessions (start : ℕ) (team_id : ℕ) : List RepoRow → List SessionRow
  | [] => []
  | r :: rs =>
    { id := start, team_id := team_id, repository_id := r.id, status := SyncStatus.queued }
      :: mkSessions (start + 1) team_id rs

/-- Embeds `sync_team_repos` (team.py lines 563-646): 404 for a missing team, 400
for a missing stored token, 400 for a team without repositories, 429 when
the team already has ≥ 3 active sessions; otherwise create one `queued`
session per repository and return the session ids.  Each error is raised
before any row is created, so the state is returned unchanged on every
error path.  The route performs no check of `team.manager_id` against
`current_user`. -/
def syncTeamRepos (db : AppDb) (team_id : ℕ) (current_user : ℕ) :
    Except ApiError (List ℕ) × AppDb :=
  match db.teams.find? (fun t => t.id == team_id) with
  | none => (Except.error (ApiError.notFound "Team not found"), db)
  | some _team =>
    match db.github_tokens.find? (fun p => p.1 == current_user) with
    | none => (Except.error (ApiError.badRequest "GitHub token not configured. Go to Settings."), db)
    | some _token =>
      let repos := db.repos.filter (fun r => r.team_id == team_id)
      if repos.isEmpty then
        (Except.error (ApiError.badRequest "No repositories linked to this team."), db)
      else if 3 ≤ (getActiveByTeam db team_id).length then
        (Except.error (ApiError.tooManyRequests "Too many active sync sessions"), db)
      else
        let created := mkSessions db.next_session_id team_id repos
        (Except.ok (created.map (fun s => s.id)),
         { db with sessions := db.sessions ++ created
                   next_session_id := db.next_session_id + repos.length })

/-! ## Settings deep merge (`_deep_merge`, team.py lines 269-277)

```python
def _deep_merge(base: dict, override: dict) -> dict:
    result = deepcopy(base)
    for key, val in override.items():
        if key in result and isinstance(result[key], dict) and isinstance(val, dict):
            result[key] = _deep_merge(result[key], val)
        else:
            result[key] = val
    return result
```

`deepcopy` makes the function pure (the `defaults` argument is never
mutated); the embedding is therefore a pure function on association lists.
`result[key] = val` replaces the value of an existing key in place (keeping
its position) and appends a fresh key, exactly as a Python dict does. -/

/-- Python `result[key]` / `key in result`: first binding of the key. -/
def getKey : Fields → String → Option Json
  | [], _ => none
  | (k', v) :: rest, k => if k' = k then some v else getKey rest k

/-- Python dict assignment `result[key] = val`. -/
def setKey : Fields → String → Json → Fields
  | [], k, v => [(k, v)]
  | (k', w) :: rest, k, v =>
    if k' = k then (k, v) :: rest else (k', w) :: setKey rest k v

mutual

/-- The body of the `for key, val in override.items()` loop for one entry:
recurse when the key is present and both sides are dicts, otherwise the
override value wins. -/
def mergeOne (cur : Option Json) (v : Json) : Json :=
  match cur, v with
  | some (Json.obj wf), Json.obj vf => Json.obj (deepMerge wf vf)
  | _, _ => v
termination_by sizeOf v

/-- Embeds `_deep_merge`, folding the override entries into (a copy of) the base. -/
def deepMerge : Fields → Fields → Fields
  | result, [] => result
  | result, (k, v) :: rest => deepMerge (setKey result k (mergeOne (getKey result k) v)) rest
termination_by result o => sizeOf o

end

/-- Keys of an object, in order. -/
def keysOf (fs : Fields) : List String := fs.map Prod.fst

mutual

/-- A Python dict never holds a duplicate key; this is the corresponding
well-formedness of the embedding, enforced recursively through nested
objects (and arrays of objects). -/
def nodupDeep : Json → Bool
  | Json.obj fs => decide (keysOf fs).Nodup && nodupDeepFields fs
  | Json.arr xs => nodupDeepList xs
  | _ => true
termination_by v => sizeOf v

def nodupDeepFields : Fields → Bool
  | [] => true
  | (_, v) :: rest => nodupDeep v && nodupDeepFields rest
termination_by fs => sizeOf fs

def nodupDeepList : List Json → Bool
  | [] => true
  | v :: rest => nodupDeep v && nodupDeepList rest
termination_by xs => sizeOf xs

end

/-- Well-formedness of a top-level settings document. -/
def wfDoc (fs : Fields) : Bool :=
  decide (keysOf fs).Nodup && nodupDeepFields fs

/-- A team with three active sessions (for the rejection branch). -/
def dbBusy : AppDb :=
  { teams := [{ id := 1, manager_id := 2 }]
    github_tokens := [(2, "ghp_token")]
    repos := [{ id := 10, team_id := 1 }]
    sessions :=
      [ { id := 0, team_id := 1, repository_id := 10, status := SyncStatus.queued }
      , { id := 1, team_id := 1, repository_id := 10, status := SyncStatus.running }
      , { id := 2, team_id := 1, repository_id := 10, status := SyncStatus.running } ]
    next_session_id := 3 }

/-- A team with no active session and two repositories (for the admission
branch). -/
def dbIdle : AppDb :=
  { teams := [{ id := 1, manager_id := 2 }]
    github_tokens := [(2, "ghp_token")]
    repos := [{ id := 10, team_id := 1 }, { id := 11, team_id := 1 }]
    sessions := []
    next_session_id := 5 }

/-- The state for C8: the team's manager is user 2, the caller is user 3 who
has a stored token; one linked repository, no active sessions. -/
def dbOtherUser : AppDb :=
  { teams := [{ id := 1, manager_id := 2 }]
    github_tokens := [(3, "ghp_token")]
    repos := [{ id := 10, team_id := 1 }]
    sessions := []
    next_session_id := 0 }

/-- The error entries a list of submitted commits contributes, in submission
order. -/
def errorEntriesOf (body : CommitJson → Except String Unit × List Eff)
    (l : List CommitJson) : List String :=
  l.filterMap (fun c => match (processSingleCommit body c).1 with
    | Except.error e => some (commitErrorEntry c.sha e)
    | Except.ok _ => none)

/-- Number of value changes along a list of booleans. -/
def countFlips : List Bool → ℕ
  | [] => 0
  | [_] => 0
  | a :: b :: rest => (if a ≠ b then 1 else 0) + countFlips (b :: rest)

/-- The submitted slice of a partition: not-yet-persisted commits in the
worker pool's completion order. -/
def submittedOf (order : List CommitJson → List CommitJson)
    (commits : List CommitJson) (existing : List String) : List CommitJson :=
  order (commits.filter (fun c => !existing.contains c.sha))

/-- A 40-character SHA, as a real forge assigns. -/
def shaLong : String := "0123456789abcdef0123456789abcdef01234567"

/-- A truthy `"author"` object. -/
def devAuthor : Json := Json.obj [("login", Json.str "dev")]

def commitA : CommitJson := { sha := "a", author := some devAuthor, date := some 0 }

def commitB : CommitJson := { sha := shaLong, author := some devAuthor, date := some 0 }

def commitC : CommitJson := { sha := "c", author := some devAuthor, date := some (-100) }

/-- Discovered commits of the boundary scenario: `a` and `b` in the sprint
window, `c` in the archive. -/
def cexCommits : List CommitJson := [commitA, commitB, commitC]

/-- A worker body for which the detail fetch of commit `b` keeps failing
with an HTTP 500 and every other commit persists fine. -/
def cexBody : CommitJson → Except String Unit × List Eff := fun c =>
  if c.sha == shaLong then (Except.error "HTTP 500", [Eff.fetchDetail c.sha])
  else (Except.ok (), [Eff.fetchDetail c.sha, Eff.createCommit c.sha,
    Eff.updateDetails c.sha, Eff.bulkCreateFiles c.sha])

/-- A list-endpoint record with no author object. -/
def noAuthorCommit : CommitJson := { sha := "deadbee1", author := none, date := some 0 }

/-- A body that would fetch and persist if it were reached. -/
def probeBody : CommitJson → Except String Unit × List Eff := fun c =>
  (Except.ok (), [Eff.fetchDetail c.sha, Eff.createCommit c.sha])

/-- A defaults document with a nested mapping, as the built-in config
documents have. -/
def dExample : Fields :=
  [("a", Json.obj [("x", Json.num 1), ("y", Json.num 2)]), ("b", Json.str "keep")]

/-- An override touching part of the nested mapping and adding a key. -/
def xExample : Fields :=
  [("a", Json.obj [("y", Json.num 9), ("z", Json.num 3)]), ("c", Json.bool true)]

/-! ## Helper lemmas -/

theorem floor_le_roundHalfEven (q : ℚ) : ⌊q⌋ ≤ roundHalfEven q := by
  unfold roundHalfEven
  by_cases h1 : q - ((⌊q⌋ : ℤ) : ℚ) < 1/2
  · rw [if_pos h1]
  · rw [if_neg h1]
    by_cases h2 : 1/2 < q - ((⌊q⌋ : ℤ) : ℚ)
    · rw [if_pos h2]; omega
    · rw [if_neg h2]
      by_cases h3 : ⌊q⌋ % 2 = 0
      · rw [if_pos h3]
      · rw [if_neg h3]; omega

theorem roundHalfEven_le_ceil (q : ℚ) : roundHalfEven q ≤ ⌈q⌉ := by
  unfold roundHalfEven
  have hfc : ((⌊q⌋ : ℤ) : ℚ) ≤ q := Int.floor_le q
  have hfloorceil : ⌊q⌋ ≤ ⌈q⌉ := Int.floor_le_ceil q
  by_cases h1 : q - ((⌊q⌋ : ℤ) : ℚ) < 1/2
  · rw [if_pos h1]; exact hfloorceil
  · have hlt : ((⌊q⌋ : ℤ) : ℚ) < q := by
      rcases lt_or_eq_of_le hfc with h | h
      · exact h
      · exfalso; apply h1; rw [← h]; norm_num
    have hceil : ⌊q⌋ + 1 ≤ ⌈q⌉ := by
      have h1' : ((⌊q⌋ : ℤ) : ℚ) < ((⌈q⌉ : ℤ) : ℚ) := lt_of_lt_of_le hlt (Int.le_ceil q)
      have h2' : ⌊q⌋ < ⌈q⌉ := by exact_mod_cast h1'
      omega
    rw [if_neg h1]
    by_cases h2 : 1/2 < q - ((⌊q⌋ : ℤ) : ℚ)
    · rw [if_pos h2]; exact hceil
    · rw [if_neg h2]
      by_cases h3 : ⌊q⌋ % 2 = 0
      · rw [if_pos h3]; exact hfloorceil
      · rw [if_neg h3]; exact hceil

theorem roundHalfEven_intCast (n : ℤ) : roundHalfEven (n : ℚ) = n := by
  simp [roundHalfEven]

theorem roundTo1_min_100 (q : ℚ) : roundTo1 (min q 100) = min (roundTo1 q) 100 := by
  rcases le_total q 100 with h | h
  · rw [min_eq_left h]
    have h10 : (10 : ℚ) * q ≤ 1000 := by linarith
    have hceil : ⌈(10 : ℚ) * q⌉ ≤ 1000 := Int.ceil_le.mpr (by exact_mod_cast h10)
    have hr : roundHalfEven (10 * q) ≤ 1000 := le_trans (roundHalfEven_le_ceil _) hceil
    have hle : roundTo1 q ≤ 100 := by
      unfold roundTo1
      have hc : ((roundHalfEven (10 * q) : ℤ) : ℚ) ≤ 1000 := by exact_mod_cast hr
      linarith
    rw [min_eq_left hle]
  · rw [min_eq_right h]
    have h1000 : (1000 : ℚ) ≤ 10 * q := by linarith
    have hfl : (1000 : ℤ) ≤ ⌊(10 : ℚ) * q⌋ := Int.le_floor.mpr (by exact_mod_cast h1000)
    have hr : (1000 : ℤ) ≤ roundHalfEven (10 * q) := le_trans hfl (floor_le_roundHalfEven _)
    have h100 : (100 : ℚ) ≤ roundTo1 q := by
      unfold roundTo1
      have hc : (1000 : ℚ) ≤ ((roundHalfEven (10 * q) : ℤ) : ℚ) := by exact_mod_cast hr
      linarith
    rw [min_eq_right h100]
    unfold roundTo1
    have he : (10 : ℚ) * 100 = ((1000 : ℤ) : ℚ) := by norm_num
    rw [he, roundHalfEven_intCast]
    norm_num

theorem dqi_arg_eq (feat fix s t : ℕ) :
    (((feat : ℚ)) / (t : ℚ) * 0.5 +
      (1 - if 0 < (feat : ℚ) + (fix : ℚ) then (fix : ℚ) / ((feat : ℚ) + (fix : ℚ)) else 0) * 0.3 +
      (s : ℚ) / (t : ℚ) * 0.2) * 100 =
    (0.5 * ((feat : ℚ) / (t : ℚ)) +
      0.3 * (1 - if feat + fix = 0 then 0 else (fix : ℚ) / ((feat : ℚ) + (fix : ℚ))) +
      0.2 * ((s : ℚ) / (t : ℚ))) * 100 := by
  by_cases hd : feat + fix = 0
  · have hf : feat = 0 := by omega
    have hx : fix = 0 := by omega
    subst hf; subst hx
    norm_num
    ring
  · have hpos : 0 < (feat : ℚ) + (fix : ℚ) := by
      have hn : 0 < feat + fix := Nat.pos_of_ne_zero hd
      exact_mod_cast hn
    rw [if_pos hpos, if_neg hd]
    ring

/-- C6: for every contributor accumulator the Developer Quality Index equals
`(0.5·functional_ratio + 0.3·(1 − bug_rate) + 0.2·significant_ratio)·100`
with `feat` the summed feat/perf/refactor counts, `fix` the fix count,
`bug_rate = fix/(feat+fix)` (0 when `feat+fix = 0`),
`significant_ratio = significant_commits/total_commits`, rounded to one
decimal, clamped to at most 100, and 0 when `total_commits = 0`. -/
theorem calc_dqi_matches_claim (cbt : String → ℕ) (total adds sig : ℕ) :
    calc_dqi cbt total adds sig = dqiClaim cbt total sig := by
  by_cases h : total = 0
  · simp [calc_dqi, dqiClaim, h]
  · have hsum : (FEATURE_TYPES.map cbt).sum = cbt "feat" + cbt "perf" + cbt "refactor" := by
      simp [FEATURE_TYPES]
      ring
    simp only [calc_dqi, dqiClaim, if_neg h, hsum]
    rw [roundTo1_min_100]
    rw [dqi_arg_eq]

/-- C7 (counterexample): the claim's refill formula is wrong for elapsed
times below one second — `_refill_tokens` refills only `if elapsed >= 1`.
At `elapsed = 0.9 s` with the default configuration (capacity 4600, window
3600 s) the claimed count is `1000 + ⌊0.9·4600/3600⌋ = 1001`, but the code
leaves the 1000 tokens untouched. -/
theorem refill_differs_from_claim_below_one_second :
    refillTokens 4800 3600 200 (9/10) 1000 = 1000 ∧
    claimedRefill 4800 3600 200 (9/10) 1000 = 1001 ∧
    refillTokens 4800 3600 200 (9/10) 1000 ≠ claimedRefill 4800 3600 200 (9/10) 1000 := by
  have h1 : refillTokens 4800 3600 200 (9/10) 1000 = 1000 := by
    unfold refillTokens
    norm_num
  have h2 : claimedRefill 4800 3600 200 (9/10) 1000 = 1001 := by
    unfold claimedRefill rlCapacity
    norm_num
  refine ⟨h1, h2, by rw [h1, h2]; decide⟩

/-- C7 (amended): for a configuration with non-negative capacity and a
positive window, the refill step equals the claimed
`min(capacity, tokens + ⌊e·capacity/window⌋)` whenever `e ≥ 1`, is the
identity on the token count whenever `e < 1`, and never pushes the token
count above capacity. -/
theorem refillTokens_amended (maxr window reserve : ℤ) (e : ℚ) (tokens : ℤ)
    (hcap : 0 ≤ rlCapacity maxr reserve) (hwin : 0 < window) :
    (1 ≤ e → refillTokens maxr window reserve e tokens =
      claimedRefill maxr window reserve e tokens)
    ∧ (e < 1 → refillTokens maxr window reserve e tokens = tokens)
    ∧ (tokens ≤ rlCapacity maxr reserve →
      refillTokens maxr window reserve e tokens ≤ rlCapacity maxr reserve) := by
  have hrate : (0 : ℚ) ≤ ((rlCapacity maxr reserve : ℤ) : ℚ) / (window : ℚ) := by
    apply div_nonneg
    · exact_mod_cast hcap
    · exact_mod_cast le_of_lt hwin
  refine ⟨?_, ?_, ?_⟩
  · intro h1
    unfold refillTokens claimedRefill
    rw [if_pos h1]
    have hprod : (0 : ℚ) ≤ e * (((rlCapacity maxr reserve : ℤ) : ℚ) / (window : ℚ)) :=
      mul_nonneg (le_trans zero_le_one h1) hrate
    simp only [pyInt, if_pos hprod]
  · intro h2
    unfold refillTokens
    rw [if_neg (not_le.mpr h2)]
  · intro hle
    unfold refillTokens
    by_cases h1 : 1 ≤ e
    · rw [if_pos h1]
      exact min_le_left _ _
    · rw [if_neg h1]
      exact hle

/-- C7 (witness): the amended statement applied at the default configuration
(4800 requests/3600 s window/200 reserve): a 2 s refill matches the claimed
formula, a 0.5 s refill is a no-op, and a full bucket stays at capacity. -/
theorem refillTokens_amended_witness :
    refillTokens 4800 3600 200 2 1000 = claimedRefill 4800 3600 200 2 1000 ∧
    refillTokens 4800 3600 200 (1/2) 1000 = 1000 ∧
    refillTokens 4800 3600 200 2 4600 ≤ rlCapacity 4800 200 := by
  refine ⟨(refillTokens_amended 4800 3600 200 2 1000 (by decide) (by decide)).1 (by norm_num),
    (refillTokens_amended 4800 3600 200 (1/2) 1000 (by decide) (by decide)).2.1 (by norm_num),
    (refillTokens_amended 4800 3600 200 2 4600 (by decide) (by decide)).2.2 (by decide)⟩

/-- C1: evaluating the classifier on the message `"fix bug"` under the
default rule set shows the divergence: the claim (and spec §4.5) require
`commit_type` to be the matching rule's *category string* `"fix"`, but
`detect` stores the entire Bugfix rule object in `commit_type`
(`matched_rule = rule` on line 25 of commit_type_detector.py, never
`rule["category"]`). -/
theorem commit_type_is_rule_object_not_category :
    (detect "fix bug" defaultCommitRules).commit_type = MatchedValue.ruleObj bugfixRule ∧
    claimedCommitType "fix bug" defaultCommitRules = "fix" ∧
    (detect "fix bug" defaultCommitRules).commit_type ≠
      MatchedValue.cat (claimedCommitType "fix bug" defaultCommitRules) := by
  refine ⟨by decide, by decide, by decide⟩

/-- C2: evaluating the classifier on the message `"hello"` (which matches no
rule) under the default settings, whose `default_category` is `"other"`:
`commit_type` equals the default category, yet `is_conventional` is `true`,
because line 32 of commit_type_detector.py compares against the hard-coded
literal `"NO CATEGORY"` instead of `default_category`.  This refutes the
claimed equivalence `commit_type = default_category ↔ ¬ is_conventional`. -/
theorem is_conventional_iff_violated :
    (detect "hello" defaultCommitRules).commit_type
        = MatchedValue.cat defaultCommitRules.default_category ∧
    (detect "hello" defaultCommitRules).is_conventional = true ∧
    ¬(((detect "hello" defaultCommitRules).commit_type
        = MatchedValue.cat defaultCommitRules.default_category) ↔
      ((detect "hello" defaultCommitRules).is_conventional = false)) := by
  refine ⟨by decide, by decide, by decide⟩

/-! ## C4 / C8: the dispatch route -/

theorem mkSessions_length (tid : ℕ) (rs : List RepoRow) :
    ∀ start, (mkSessions start tid rs).length = rs.length := by
  induction rs with
  | nil => intro start; rfl
  | cons r rs ih => intro start; simp [mkSessions, ih]

theorem mkSessions_fields (tid : ℕ) (rs : List RepoRow) :
    ∀ start, ∀ s ∈ mkSessions start tid rs,
      s.status = SyncStatus.queued ∧ s.team_id = tid := by
  induction rs with
  | nil => intro start s hs; cases hs
  | cons r rs ih =>
    intro start s hs
    rcases List.mem_cons.mp hs with h | h
    · subst h; exact ⟨rfl, rfl⟩
    · exact ih (start + 1) s h

theorem mkSessions_repo_ids (tid : ℕ) (rs : List RepoRow) :
    ∀ start, (mkSessions start tid rs).map (fun s => s.repository_id) = rs.map (fun r => r.id) := by
  induction rs with
  | nil => intro start; rfl
  | cons r rs ih => intro start; simp [mkSessions, ih]

/-- C4: on an existing team with a configured token and ≥ 1 repository, the
route rejects with the 429 error and creates no session row when the team
already has ≥ 3 `queued`/`running` sessions; otherwise it creates exactly
one `queued` session per team repository (in order) and returns their
ids. -/
theorem sync_admission_control (db : AppDb) (team_id user : ℕ)
    (hteam : (db.teams.find? (fun t => t.id == team_id)).isSome)
    (htok : (db.github_tokens.find? (fun p => p.1 == user)).isSome)
    (hrepos : db.repos.filter (fun r => r.team_id == team_id) ≠ []) :
    (3 ≤ (getActiveByTeam db team_id).length →
      (syncTeamRepos db team_id user).1 =
        Except.error (ApiError.tooManyRequests "Too many active sync sessions") ∧
      (syncTeamRepos db team_id user).2 = db)
    ∧ ((getActiveByTeam db team_id).length < 3 →
      (syncTeamRepos db team_id user).1 =
        Except.ok ((mkSessions db.next_session_id team_id
          (db.repos.filter (fun r => r.team_id == team_id))).map (fun s => s.id)) ∧
      (syncTeamRepos db team_id user).2.sessions =
        db.sessions ++ mkSessions db.next_session_id team_id
          (db.repos.filter (fun r => r.team_id == team_id)) ∧
      (mkSessions db.next_session_id team_id
        (db.repos.filter (fun r => r.team_id == team_id))).length =
        (db.repos.filter (fun r => r.team_id == team_id)).length ∧
      (∀ s ∈ mkSessions db.next_session_id team_id
          (db.repos.filter (fun r => r.team_id == team_id)),
        s.status = SyncStatus.queued ∧ s.team_id = team_id) ∧
      (mkSessions db.next_session_id team_id
        (db.repos.filter (fun r => r.team_id == team_id))).map (fun s => s.repository_id) =
        (db.repos.filter (fun r => r.team_id == team_id)).map (fun r => r.id)) := by
  rcases Option.isSome_iff_exists.mp hteam with ⟨t, ht⟩
  rcases Option.isSome_iff_exists.mp htok with ⟨tok, htk⟩
  have hempty : (db.repos.filter (fun r => r.team_id == team_id)).isEmpty = false := by
    rcases hl : db.repos.filter (fun r => r.team_id == team_id) with _ | ⟨a, l⟩
    · exact absurd hl hrepos
    · rw [hl]; rfl
  constructor
  · intro hbusy
    unfold syncTeamRepos
    rw [ht, htk]
    simp only [hempty, Bool.false_eq_true, if_false, if_pos hbusy]
    exact ⟨trivial, trivial⟩
  · intro hok
    unfold syncTeamRepos
    rw [ht, htk]
    simp only [hempty, Bool.false_eq_true, if_false, if_neg (not_le.mpr hok)]
    exact ⟨trivial, trivial, mkSessions_length _ _ _, mkSessions_fields _ _ _, mkSessions_repo_ids _ _ _⟩

/-- C4 (witness): the admission gate evaluated on concrete states: three
active sessions reject without touching the state; an idle team with two
repositories gets sessions 5 and 6, both `queued`. -/
theorem sync_admission_control_witness :
    (syncTeamRepos dbBusy 1 2).1 =
      Except.error (ApiError.tooManyRequests "Too many active sync sessions") ∧
    (syncTeamRepos dbBusy 1 2).2 = dbBusy ∧
    (syncTeamRepos dbIdle 1 2).1 = Except.ok [5, 6] ∧
    (syncTeamRepos dbIdle 1 2).2.sessions =
      [ { id := 5, team_id := 1, repository_id := 10, status := SyncStatus.queued }
      , { id := 6, team_id := 1, repository_id := 11, status := SyncStatus.queued } ] := by
  have h1 := (sync_admission_control dbBusy 1 2 (by decide) (by decide) (by decide)).1 (by decide)
  have h2 := (sync_admission_control dbIdle 1 2 (by decide) (by decide) (by decide)).2 (by decide)
  exact ⟨h1.1, h1.2, h2.1, h2.2.1⟩

/-- C8: `sync_team_repos` never compares `team.manager_id` with the caller:
a caller (user 3) who is not the team manager (user 2) is admitted, a
session row is created and its id returned, contradicting the claim that
non-managers are rejected with an authorization error. -/
theorem sync_accepts_non_manager :
    (∀ t ∈ dbOtherUser.teams, t.manager_id ≠ 3) ∧
    (syncTeamRepos dbOtherUser 1 3).1 = Except.ok [0] ∧
    (syncTeamRepos dbOtherUser 1 3).2.sessions =
      [{ id := 0, team_id := 1, repository_id := 10, status := SyncStatus.queued }] := by
  exact ⟨by decide, rfl, rfl⟩

/-! ## C3 / C5 / C10: worker-pool lemmas -/

theorem pcpStep_fields (body : CommitJson → Except String Unit × List Eff)
    (st : PcpState) (c : CommitJson) :
    (pcpStep body st c).prog.current_phase = st.prog.current_phase ∧
    (pcpStep body st c).prog.sprint_commits_done = st.prog.sprint_commits_done ∧
    (pcpStep body st c).prog.total_commits = st.prog.total_commits ∧
    (pcpStep body st c).prog.processed_commits = st.prog.processed_commits + 1 ∧
    (pcpStep body st c).trace = st.trace ++ [(pcpStep body st c).prog] ∧
    (pcpStep body st c).prog.errors = st.prog.errors ++
      (match (processSingleCommit body c).1 with
        | Except.error e => [commitErrorEntry c.sha e]
        | Except.ok _ => []) := by
  unfold pcpStep
  cases h : (processSingleCommit body c).1 with
  | ok r => simp [h]
  | error e => simp [h]

theorem pcp_foldl_final (body : CommitJson → Except String Unit × List Eff)
    (l : List CommitJson) :
    ∀ st : PcpState,
      (l.foldl (pcpStep body) st).prog.processed_commits = st.prog.processed_commits + l.length ∧
      (l.foldl (pcpStep body) st).prog.errors = st.prog.errors ++ errorEntriesOf body l ∧
      (l.foldl (pcpStep body) st).prog.current_phase = st.prog.current_phase ∧
      (l.foldl (pcpStep body) st).prog.sprint_commits_done = st.prog.sprint_commits_done ∧
      (l.foldl (pcpStep body) st).prog.total_commits = st.prog.total_commits := by
  induction l with
  | nil => intro st; simp [errorEntriesOf]
  | cons c rest ih =>
    intro st
    have hstep := pcpStep_fields body st c
    have hih := ih (pcpStep body st c)
    simp only [List.foldl_cons]
    refine ⟨?_, ?_, ?_, ?_, ?_⟩
    · rw [hih.1, hstep.2.2.2.1]
      simp only [List.length_cons]
      omega
    · rw [hih.2.1, hstep.2.2.2.2.2]
      simp only [errorEntriesOf, List.filterMap_cons]
      cases h : (processSingleCommit body c).1 <;> simp [h, errorEntriesOf]
    · rw [hih.2.2.1, hstep.1]
    · rw [hih.2.2.2.1, hstep.2.1]
    · rw [hih.2.2.2.2, hstep.2.2.1]

theorem pcp_trace_mem (body : CommitJson → Except String Unit × List Eff)
    (l : List CommitJson) :
    ∀ st : PcpState, ∀ s ∈ (l.foldl (pcpStep body) st).trace,
      s ∈ st.trace ∨
      (s.current_phase = st.prog.current_phase ∧
       s.sprint_commits_done = st.prog.sprint_commits_done ∧
       st.prog.processed_commits ≤ s.processed_commits) := by
  induction l with
  | nil => intro st s hs; exact Or.inl hs
  | cons c rest ih =>
    intro st s hs
    have hstep := pcpStep_fields body st c
    rcases ih (pcpStep body st c) s hs with hmem | hprops
    · rw [hstep.2.2.2.2.1] at hmem
      rcases List.mem_append.mp hmem with h | h
      · exact Or.inl h
      · have hs' : s = (pcpStep body st c).prog := List.mem_singleton.mp h
        right
        rw [hs', hstep.1, hstep.2.1, hstep.2.2.2.1]
        exact ⟨rfl, rfl, Nat.le_succ _⟩
    · right
      rw [hstep.1, hstep.2.1] at hprops
      refine ⟨hprops.1, hprops.2.1, ?_⟩
      have := hprops.2.2
      rw [hstep.2.2.2.1] at this
      omega

theorem pcp_trace_done_map (body : CommitJson → Except String Unit × List Eff)
    (l : List CommitJson) :
    ∀ st : PcpState,
      ((l.foldl (pcpStep body) st).trace).map (fun s => s.sprint_commits_done) =
        st.trace.map (fun s => s.sprint_commits_done) ++
          List.replicate l.length st.prog.sprint_commits_done := by
  induction l with
  | nil => intro st; simp
  | cons c rest ih =>
    intro st
    have hstep := pcpStep_fields body st c
    simp only [List.foldl_cons]
    rw [ih (pcpStep body st c), hstep.2.2.2.2.1, hstep.2.1]
    simp only [List.map_append, List.map_cons, List.map_nil, List.length_cons]
    rw [hstep.2.1]
    rw [List.append_assoc, List.singleton_append, ← List.replicate_succ]

theorem countFlips_absorb (b : Bool) (l : List Bool) :
    ∀ n, countFlips (b :: (List.replicate n b ++ l)) = countFlips (b :: l) := by
  intro n
  induction n with
  | zero => simp
  | succ n ih =>
    rw [List.replicate_succ, List.cons_append]
    have hstep : countFlips (b :: b :: (List.replicate n b ++ l)) =
        (if b ≠ b then 1 else 0) + countFlips (b :: (List.replicate n b ++ l)) := rfl
    rw [hstep, ih]
    simp

theorem countFlips_one_block (k m : ℕ) (hk : 1 ≤ k) (hm : 1 ≤ m) :
    countFlips (List.replicate k false ++ List.replicate m true) = 1 := by
  obtain ⟨k', rfl⟩ : ∃ k', k = k' + 1 := ⟨k - 1, by omega⟩
  obtain ⟨m', rfl⟩ : ∃ m', m = m' + 1 := ⟨m - 1, by omega⟩
  rw [List.replicate_succ, List.cons_append, countFlips_absorb]
  rw [List.replicate_succ]
  have h1 : countFlips (false :: true :: List.replicate m' true) =
      (if (false : Bool) ≠ true then 1 else 0) + countFlips (true :: List.replicate m' true) := rfl
  rw [h1]
  have h2 : countFlips (true :: List.replicate m' true) = 0 := by
    rw [← List.append_nil (List.replicate m' true), countFlips_absorb]
    rfl
  rw [h2]
  simp

theorem pcp_parts (body : CommitJson → Except String Unit × List Eff)
    (order : List CommitJson → List CommitJson)
    (commits : List CommitJson) (existing : List String) (prog : SyncProgress) :
    (processCommitsParallel body order commits existing prog).1.processed_commits =
      prog.processed_commits + (submittedOf order commits existing).length ∧
    (processCommitsParallel body order commits existing prog).1.errors =
      prog.errors ++ errorEntriesOf body (submittedOf order commits existing) ∧
    (processCommitsParallel body order commits existing prog).1.current_phase = prog.current_phase ∧
    (processCommitsParallel body order commits existing prog).1.sprint_commits_done =
      prog.sprint_commits_done ∧
    ((processCommitsParallel body order commits existing prog).2.1).map
        (fun s => s.sprint_commits_done) =
      List.replicate (submittedOf order commits existing).length prog.sprint_commits_done ∧
    (∀ s ∈ (processCommitsParallel body order commits existing prog).2.1,
      s.current_phase = prog.current_phase ∧
      s.sprint_commits_done = prog.sprint_commits_done ∧
      prog.processed_commits ≤ s.processed_commits) := by
  have hfin := pcp_foldl_final body (submittedOf order commits existing)
    { prog := prog, newCount := 0, trace := [] }
  have hmem := pcp_trace_mem body (submittedOf order commits existing)
    { prog := prog, newCount := 0, trace := [] }
  have hmap := pcp_trace_done_map body (submittedOf order commits existing)
    { prog := prog, newCount := 0, trace := [] }
  unfold processCommitsParallel
  simp only [submittedOf] at hfin hmem hmap ⊢
  refine ⟨hfin.1, hfin.2.1, hfin.2.2.1, hfin.2.2.2.1, ?_, ?_⟩
  · dsimp only
    rw [hmap]
    simp
  · dsimp only
    intro s hs
    rcases hmem s hs with h | h
    · cases h
    · exact h

theorem syncRepository_parts (body : CommitJson → Except String Unit × List Eff)
    (order : List CommitJson → List CommitJson)
    (allCommits : List CommitJson) (cutoff : Int) (existing : List String) :
    (syncRepository body order allCommits cutoff existing).1.errors =
      errorEntriesOf body (submittedOf order (sprintPartOf cutoff allCommits) existing) ++
        errorEntriesOf body (submittedOf order (archivePartOf cutoff allCommits) existing) ∧
    (syncRepository body order allCommits cutoff existing).1.processed_commits =
      (submittedOf order (sprintPartOf cutoff allCommits) existing).length +
        (submittedOf order (archivePartOf cutoff allCommits) existing).length ∧
    ((syncRepository body order allCommits cutoff existing).2.2).map
        (fun s => s.sprint_commits_done) =
      List.replicate (3 + (submittedOf order (sprintPartOf cutoff allCommits) existing).length) false ++
        List.replicate ((submittedOf order (archivePartOf cutoff allCommits) existing).length + 3) true ∧
    (∀ s ∈ (syncRepository body order allCommits cutoff existing).2.2,
      s.current_phase = Phase.processing_archive → s.sprint_commits_done = true) ∧
    (∀ s ∈ (syncRepository body order allCommits cutoff existing).2.2,
      s.sprint_commits_done = true →
        (submittedOf order (sprintPartOf cutoff allCommits) existing).length ≤
          s.processed_commits) := by
  unfold syncRepository
  dsimp only
  have hs := pcp_parts body order (sprintPartOf cutoff allCommits) existing
    { total_commits := allCommits.length, processed_commits := 0,
      current_phase := Phase.processing_sprint, sprint_commits_done := false, errors := [] }
  set s1 := processCommitsParallel body order (sprintPartOf cutoff allCommits) existing
    { total_commits := allCommits.length, processed_commits := 0,
      current_phase := Phase.processing_sprint, sprint_commits_done := false, errors := [] }
    with hs1def
  dsimp only at hs
  have ha := pcp_parts body order (archivePartOf cutoff allCommits) existing
    { s1.1 with sprint_commits_done := true, current_phase := Phase.processing_archive }
  set s2 := processCommitsParallel body order (archivePartOf cutoff allCommits) existing
    { s1.1 with sprint_commits_done := true, current_phase := Phase.processing_archive }
    with hs2def
  dsimp only at ha
  refine ⟨?_, ?_, ?_, ?_, ?_⟩
  · rw [ha.2.1, hs.2.1]
    simp
  · rw [ha.1, hs.1]
    omega
  · simp only [List.map_append, List.map_cons, List.map_nil]
    rw [hs.2.2.2.2.1, ha.2.2.2.2.1]
    have hp8 : ({ s2.1 with current_phase := Phase.complete } : SyncProgress).sprint_commits_done
        = true := by
      dsimp only
      rw [ha.2.2.2.1]
    rw [hp8]
    rw [List.replicate_add, Nat.add_comm _ 3, List.replicate_add]
    simp only [List.replicate, List.append_assoc, List.cons_append, List.nil_append,
      List.singleton_append]
    rw [← List.replicate_succ', ← List.replicate_succ]
    simp [List.replicate_succ]
  · intro s hmem harch
    simp only [List.append_assoc, List.mem_append, List.mem_cons, List.mem_singleton,
      List.not_mem_nil, or_false] at hmem
    rcases hmem with (h | h | h) | h | (h | h) | h | h
    · subst h; simp at harch
    · subst h; simp at harch
    · subst h; simp at harch
    · have hph := (hs.2.2.2.2.2 s h).1
      rw [hph] at harch
      cases harch
    · subst h; rfl
    · subst h; rfl
    · exact ((ha.2.2.2.2.2 s h).2.1)
    · subst h
      exact ha.2.2.2.1
  · intro s hmem hdone
    simp only [List.append_assoc, List.mem_append, List.mem_cons, List.mem_singleton,
      List.not_mem_nil, or_false] at hmem
    rcases hmem with (h | h | h) | h | (h | h) | h | h
    · subst h; simp at hdone
    · subst h; simp at hdone
    · subst h; simp at hdone
    · have := (hs.2.2.2.2.2 s h).2.1
      rw [this] at hdone
      cases hdone
    · subst h
      rw [hs.1]
      omega
    · subst h
      rw [hs.1]
      omega
    · have hle := (ha.2.2.2.2.2 s h).2.2
      rw [hs.1] at hle
      omega
    · subst h
      rw [ha.1, hs.1]
      omega

/-- C5: in every run of `sync_repository`, over the emitted progress
snapshots, `sprint_commits_done` changes value exactly once; every snapshot
of the archive phase already has it true; and every snapshot with it true
has `processed_commits` at least the number of submitted sprint commits —
the sprint partition is fully drained, and the flag set, before any archive
work shows up. -/
theorem sprint_partition_before_archive
    (body : CommitJson → Except String Unit × List Eff)
    (order : List CommitJson → List CommitJson)
    (allCommits : List CommitJson) (cutoff : Int) (existing : List String) :
    countFlips (((syncRepository body order allCommits cutoff existing).2.2).map
      (fun s => s.sprint_commits_done)) = 1 ∧
    (∀ s ∈ (syncRepository body order allCommits cutoff existing).2.2,
      s.current_phase = Phase.processing_archive → s.sprint_commits_done = true) ∧
    (∀ s ∈ (syncRepository body order allCommits cutoff existing).2.2,
      s.sprint_commits_done = true →
        (submittedOf order (sprintPartOf cutoff allCommits) existing).length ≤
          s.processed_commits) := by
  have h := syncRepository_parts body order allCommits cutoff existing
  refine ⟨?_, h.2.2.2.1, h.2.2.2.2⟩
  rw [h.2.2.1]
  exact countFlips_one_block _ _ (by omega) (by omega)

/-- C5 (witness): the boundary scenario evaluated: the flag flips exactly
once; snapshot 6 (the `processing_archive` phase change) has the flag set
and both sprint commits processed. -/
theorem sprint_partition_before_archive_witness :
    countFlips (((syncRepository cexBody id cexCommits (-10) []).2.2).map
      (fun s => s.sprint_commits_done)) = 1 ∧
    (((syncRepository cexBody id cexCommits (-10) []).2.2).getD 6
      ({ } : SyncProgress)).sprint_commits_done = true ∧
    2 ≤ (((syncRepository cexBody id cexCommits (-10) []).2.2).getD 6
      ({ } : SyncProgress)).processed_commits := by
  have h := sprint_partition_before_archive cexBody id cexCommits (-10) []
  refine ⟨h.1, h.2.1 _ (by decide) (by decide), h.2.2 _ (by decide) (by decide)⟩

/-- C3 (amended): a submitted commit whose processing raises appends the
error entry `Commit <sha[:7]>: <message>` to the session's error list, is
still counted in `processed_commits` (which reaches the full submitted
count — siblings are not aborted), and the background run still finishes
`completed` with exactly the orchestrator's error list. -/
theorem per_commit_failure_isolated
    (body : CommitJson → Except String Unit × List Eff)
    (order : List CommitJson → List CommitJson)
    (allCommits : List CommitJson) (cutoff : Int) (existing : List String)
    (c : CommitJson) (msg : String)
    (hmem : c ∈ submittedOf order (sprintPartOf cutoff allCommits) existing ∨
            c ∈ submittedOf order (archivePartOf cutoff allCommits) existing)
    (hfail : (processSingleCommit body c).1 = Except.error msg) :
    commitErrorEntry c.sha msg ∈ (syncRepository body order allCommits cutoff existing).1.errors ∧
    (syncRepository body order allCommits cutoff existing).1.processed_commits =
      (submittedOf order (sprintPartOf cutoff allCommits) existing).length +
      (submittedOf order (archivePartOf cutoff allCommits) existing).length ∧
    (syncRepositoryBackground (Except.ok allCommits) body order cutoff existing).1 =
      SyncStatus.completed ∧
    (syncRepositoryBackground (Except.ok allCommits) body order cutoff existing).2.1 =
      (syncRepository body order allCommits cutoff existing).1.errors := by
  have h := syncRepository_parts body order allCommits cutoff existing
  refine ⟨?_, h.2.1, rfl, rfl⟩
  rw [h.1]
  rcases hmem with hm | hm
  · exact List.mem_append_left _ (List.mem_filterMap.mpr ⟨c, hm, by rw [hfail]⟩)
  · exact List.mem_append_right _ (List.mem_filterMap.mpr ⟨c, hm, by rw [hfail]⟩)

/-- C3 (witness): the boundary scenario: commit `b` fails with an HTTP 500
three-retry exhaustion, `a` and `c` succeed; the session completes with
`processed_commits = 3`, `new_commits = 2` and the single short-SHA error
entry. -/
theorem per_commit_failure_isolated_witness :
    commitErrorEntry shaLong "HTTP 500" ∈
      (syncRepository cexBody id cexCommits (-10) []).1.errors ∧
    (syncRepository cexBody id cexCommits (-10) []).1.processed_commits = 3 ∧
    (syncRepositoryBackground (Except.ok cexCommits) cexBody id (-10) []).1 =
      SyncStatus.completed ∧
    (syncRepositoryBackground (Except.ok cexCommits) cexBody id (-10) []).2.2 = 2 := by
  have h := per_commit_failure_isolated cexBody id cexCommits (-10) [] commitB "HTTP 500"
    (Or.inl (by exact List.Mem.tail _ (List.Mem.head _))) rfl
  exact ⟨h.1, h.2.1, h.2.2.1, rfl⟩

/-- C3 (counterexample): the error entry recorded for the failed commit `b`
contains only the first 7 characters of the SHA — the full 40-character SHA
is not a substring of the entry, contradicting the claim that the entry
contains the commit's SHA. -/
theorem error_entry_omits_full_sha :
    (syncRepositoryBackground (Except.ok cexCommits) cexBody id (-10) []).2.1 =
      [commitErrorEntry shaLong "HTTP 500"] ∧
    ¬ List.IsInfix shaLong.data (commitErrorEntry shaLong "HTTP 500").data := by
  exact ⟨rfl, by decide⟩

/-- C10: a commit whose `"author"` key is absent, or holds JSON `null`, is
answered `created = false` immediately: no detail fetch and no row write
(the effect list is empty whatever the body would have done), no error; in
the pool loop it still increments `processed_commits` and contributes
nothing to `new_count`. -/
theorem missing_author_commit_skipped
    (body : CommitJson → Except String Unit × List Eff) (c : CommitJson)
    (h : c.author = none ∨ c.author = some Json.null) :
    processSingleCommit body c = (Except.ok { created := false, sha := c.sha }, []) ∧
    (∀ st : PcpState,
      (pcpStep body st c).prog.errors = st.prog.errors ∧
      (pcpStep body st c).prog.processed_commits = st.prog.processed_commits + 1 ∧
      (pcpStep body st c).newCount = st.newCount) := by
  have hskip : (c.author.isNone || !jsonTruthy (c.author.getD Json.null)) = true := by
    rcases h with h | h <;> rw [h] <;> rfl
  have hps : processSingleCommit body c = (Except.ok { created := false, sha := c.sha }, []) := by
    unfold processSingleCommit
    rw [if_pos hskip]
  refine ⟨hps, ?_⟩
  intro st
  unfold pcpStep
  rw [hps]
  simp

/-- C10 (witness): the skip path evaluated on a concrete author-less commit:
no effects, `created = false`, processed counted, nothing new, no error. -/
theorem missing_author_commit_skipped_witness :
    processSingleCommit probeBody noAuthorCommit =
      (Except.ok { created := false, sha := "deadbee1" }, []) ∧
    (pcpStep probeBody { prog := { }, newCount := 0, trace := [] } noAuthorCommit).prog.processed_commits = 1 ∧
    (pcpStep probeBody { prog := { }, newCount := 0, trace := [] } noAuthorCommit).newCount = 0 ∧
    (pcpStep probeBody { prog := { }, newCount := 0, trace := [] } noAuthorCommit).prog.errors = [] := by
  have h := missing_author_commit_skipped probeBody noAuthorCommit (Or.inl rfl)
  have h2 := h.2 { prog := { }, newCount := 0, trace := [] }
  exact ⟨h.1, h2.2.1, h2.2.2, h2.1⟩

/-! ## C9: the settings deep merge -/

theorem getKey_setKey_self (fs : Fields) (k : String) (v : Json) :
    getKey (setKey fs k v) k = some v := by
  induction fs with
  | nil => simp [setKey, getKey]
  | cons p rest ih =>
    by_cases h : p.1 = k
    · simp [setKey, h, getKey]
    · simp [setKey, h, getKey, ih]

theorem getKey_setKey_ne (fs : Fields) (k k' : String) (v : Json) (h : k' ≠ k) :
    getKey (setKey fs k v) k' = getKey fs k' := by
  induction fs with
  | nil => simp [setKey, getKey, Ne.symm h]
  | cons p rest ih =>
    by_cases hp : p.1 = k
    · have hpk' : ¬ p.1 = k' := fun hc => h (by rw [← hc, hp])
      simp only [setKey, if_pos hp, getKey]
      rw [if_neg (Ne.symm h), if_neg hpk']
    · simp only [setKey, if_neg hp, getKey]
      by_cases hp' : p.1 = k'
      · simp [hp']
      · simp [hp', ih]

theorem mem_keysOf_iff (fs : Fields) (k : String) :
    k ∈ keysOf fs ↔ (getKey fs k).isSome := by
  induction fs with
  | nil => simp [keysOf, getKey]
  | cons p rest ih =>
    by_cases h : p.1 = k
    · simp [keysOf, getKey, h]
    · simp only [keysOf, List.map_cons, List.mem_cons, getKey, if_pos, if_neg h]
      constructor
      · intro hk
        rcases hk with hk | hk
        · exact absurd hk.symm h
        · exact ih.mp hk
      · intro hk
        exact Or.inr (ih.mpr hk)

theorem keysOf_setKey (fs : Fields) (k : String) (v : Json) :
    keysOf (setKey fs k v) =
      if (getKey fs k).isSome then keysOf fs else keysOf fs ++ [k] := by
  induction fs with
  | nil => simp [setKey, getKey, keysOf]
  | cons p rest ih =>
    by_cases h : p.1 = k
    · simp [setKey, h, getKey, keysOf]
    · simp only [setKey, if_neg h, keysOf, List.map_cons, getKey]
      rw [show (List.map Prod.fst (setKey rest k v)) = keysOf (setKey rest k v) from rfl, ih]
      by_cases hs : (getKey rest k).isSome <;> simp [hs, keysOf]

theorem mergeOne_obj_obj (wf vf : Fields) :
    mergeOne (some (Json.obj wf)) (Json.obj vf) = Json.obj (deepMerge wf vf) := by
  rw [mergeOne]

theorem mergeOne_not_obj_left (cur : Option Json) (v : Json)
    (h : ∀ wf, cur ≠ some (Json.obj wf)) : mergeOne cur v = v := by
  rw [mergeOne.eq_def]
  split
  · rename_i wf vf
    exact absurd rfl (h wf)
  · rfl

theorem mergeOne_not_obj_right (cur : Option Json) (v : Json)
    (h : ∀ vf, v ≠ Json.obj vf) : mergeOne cur v = v := by
  rw [mergeOne.eq_def]
  split
  · rename_i wf vf
    exact absurd rfl (h vf)
  · rfl

theorem deepMerge_nil (b : Fields) : deepMerge b [] = b := by
  simp [deepMerge]

theorem deepMerge_cons (b : Fields) (k : String) (v : Json) (rest : Fields) :
    deepMerge b ((k, v) :: rest) = deepMerge (setKey b k (mergeOne (getKey b k) v)) rest := by
  rw [deepMerge]

theorem getKey_sizeOf (fs : Fields) (k : String) (v : Json)
    (h : getKey fs k = some v) : sizeOf v < sizeOf fs := by
  induction fs with
  | nil => simp [getKey] at h
  | cons p rest ih =>
    simp only [getKey] at h
    by_cases hp : p.1 = k
    · rw [if_pos hp] at h
      cases h
      rcases p with ⟨k0, v0⟩
      simp
      omega
    · rw [if_neg hp] at h
      have := ih h
      rcases p with ⟨k0, v0⟩
      simp
      omega

theorem nodupDeep_of_getKey (fs : Fields) (k : String) (v : Json)
    (hwf : nodupDeepFields fs = true) (h : getKey fs k = some v) :
    nodupDeep v = true := by
  induction fs with
  | nil => simp [getKey] at h
  | cons p rest ih =>
    rcases p with ⟨k0, v0⟩
    simp only [nodupDeepFields, Bool.and_eq_true] at hwf
    simp only [getKey] at h
    by_cases hp : k0 = k
    · rw [if_pos hp] at h
      cases h
      exact hwf.1
    · rw [if_neg hp] at h
      exact ih hwf.2 h

/-- On an object value `nodupDeep` is `wfDoc` of its fields. -/
theorem nodupDeep_obj (fs : Fields) : nodupDeep (Json.obj fs) = wfDoc fs := by
  rw [nodupDeep, wfDoc]

theorem getKey_deepMerge (o : Fields) :
    ∀ b : Fields, (keysOf o).Nodup → ∀ k,
      getKey (deepMerge b o) k =
        match getKey o k with
        | none => getKey b k
        | some v => some (mergeOne (getKey b k) v) := by
  induction o with
  | nil =>
    intro b _ k
    simp [deepMerge_nil, getKey]
  | cons p rest ih =>
    rcases p with ⟨k0, v0⟩
    intro b hnd k
    have hnd0 : k0 ∉ keysOf rest ∧ (keysOf rest).Nodup := by
      rw [show keysOf ((k0, v0) :: rest) = k0 :: keysOf rest from rfl] at hnd
      exact List.nodup_cons.mp hnd
    rw [deepMerge_cons, ih _ hnd0.2 k]
    by_cases hk : k0 = k
    · subst hk
      have hrest : getKey rest k0 = none := by
        cases hr : getKey rest k0 with
        | none => rfl
        | some w =>
          exact absurd ((mem_keysOf_iff rest k0).mpr (by rw [hr]; rfl)) hnd0.1
      rw [hrest]
      simp only [getKey, if_pos rfl]
      rw [getKey_setKey_self]
      simp
    · simp only [getKey, if_neg hk]
      rw [getKey_setKey_ne b k0 k _ (Ne.symm hk)]

theorem keysOf_deepMerge (o : Fields) :
    ∀ b : Fields, (keysOf o).Nodup →
      keysOf (deepMerge b o) =
        keysOf b ++ (keysOf o).filter (fun k => !(getKey b k).isSome) := by
  induction o with
  | nil =>
    intro b _
    simp [deepMerge_nil, keysOf]
  | cons p rest ih =>
    rcases p with ⟨k0, v0⟩
    intro b hnd
    have hnd0 : k0 ∉ keysOf rest ∧ (keysOf rest).Nodup :=
      List.nodup_cons.mp (show (k0 :: keysOf rest).Nodup from hnd)
    rw [deepMerge_cons, ih _ hnd0.2, keysOf_setKey]
    rw [show keysOf ((k0, v0) :: rest) = k0 :: keysOf rest from rfl, List.filter_cons]
    by_cases hb : (getKey b k0).isSome
    · rw [if_pos hb]
      simp only [hb, Bool.not_true, if_false, Bool.false_eq_true]
      congr 1
      apply List.filter_congr
      intro k hk
      have hne : k ≠ k0 := fun hc => hnd0.1 (hc ▸ hk)
      rw [getKey_setKey_ne _ _ _ _ hne]
    · rw [if_neg hb]
      have hb' : (!(getKey b k0).isSome) = true := by
        rw [Bool.not_eq_true']
        exact Bool.of_not_eq_true hb
      simp only [hb', if_true]
      rw [List.append_assoc, List.singleton_append]
      congr 2
      apply List.filter_congr
      intro k hk
      have hne : k ≠ k0 := fun hc => hnd0.1 (hc ▸ hk)
      rw [getKey_setKey_ne _ _ _ _ hne]

theorem nodup_keysOf_deepMerge (b o : Fields)
    (hb : (keysOf b).Nodup) (ho : (keysOf o).Nodup) :
    (keysOf (deepMerge b o)).Nodup := by
  rw [keysOf_deepMerge o b ho]
  apply List.Nodup.append hb (ho.filter _)
  intro k hk1 hk2
  have h2 := (List.mem_filter.mp hk2).2
  have hkb := (mem_keysOf_iff b k).mp hk1
  rw [hkb] at h2
  cases h2

theorem assoc_ext (l1 : Fields) :
    ∀ l2 : Fields, (keysOf l1).Nodup → keysOf l1 = keysOf l2 →
      (∀ k, getKey l1 k = getKey l2 k) → l1 = l2 := by
  induction l1 with
  | nil =>
    intro l2 _ hkeys _
    cases l2 with
    | nil => rfl
    | cons q r2 => simp [keysOf] at hkeys
  | cons p r1 ih =>
    rcases p with ⟨k0, v0⟩
    intro l2 hnd hkeys hget
    cases l2 with
    | nil => simp [keysOf] at hkeys
    | cons q r2 =>
      rcases q with ⟨k1, v1⟩
      rw [show keysOf ((k0, v0) :: r1) = k0 :: keysOf r1 from rfl,
        show keysOf ((k1, v1) :: r2) = k1 :: keysOf r2 from rfl] at hkeys
      have h1 : k0 = k1 := (List.cons.injEq _ _ _ _ ▸ hkeys : _ ∧ _).1
      have h2 : keysOf r1 = keysOf r2 := (List.cons.injEq _ _ _ _ ▸ hkeys : _ ∧ _).2
      subst h1
      have hnd0 : k0 ∉ keysOf r1 ∧ (keysOf r1).Nodup :=
        List.nodup_cons.mp (show (k0 :: keysOf r1).Nodup from hnd)
      have hv : v0 = v1 := by
        have hg := hget k0
        simp [getKey] at hg
        exact hg
      subst hv
      have hr : r1 = r2 := by
        apply ih r2 hnd0.2 h2
        intro k
        by_cases hk : k = k0
        · subst hk
          have hn1 : getKey r1 k = none := by
            cases hr1 : getKey r1 k with
            | none => rfl
            | some w => exact absurd ((mem_keysOf_iff r1 k).mpr (by rw [hr1]; rfl)) hnd0.1
          have hn2 : getKey r2 k = none := by
            cases hr2 : getKey r2 k with
            | none => rfl
            | some w =>
              exact absurd ((mem_keysOf_iff r2 k).mpr (by rw [hr2]; rfl)) (h2 ▸ hnd0.1)
          rw [hn1, hn2]
        · have hk0 : ¬ k0 = k := fun hc => hk hc.symm
          have hg := hget k
          simp only [getKey, if_neg hk0] at hg
          exact hg
      rw [hr]

theorem wfDoc_nodup (fs : Fields) (h : wfDoc fs = true) : (keysOf fs).Nodup := by
  rw [wfDoc, Bool.and_eq_true, decide_eq_true_eq] at h
  exact h.1

theorem wfDoc_fields (fs : Fields) (h : wfDoc fs = true) : nodupDeepFields fs = true := by
  rw [wfDoc, Bool.and_eq_true] at h
  exact h.2

theorem filter_not_isSome_self (b : Fields) :
    (keysOf b).filter (fun k => !(getKey b k).isSome) = [] := by
  rw [List.filter_eq_nil]
  intro k hk
  rw [(mem_keysOf_iff b k).mp hk]
  simp

theorem deepMerge_main (n : ℕ) :
    ∀ d X : Fields, sizeOf d < n → wfDoc d = true → wfDoc X = true →
      deepMerge d d = d ∧ deepMerge d (deepMerge d X) = deepMerge d X := by
  induction n with
  | zero => intro d X h _ _; omega
  | succ m ih =>
    intro d X hsz hd hX
    have hdnd := wfDoc_nodup d hd
    have hXnd := wfDoc_nodup X hX
    constructor
    · -- deepMerge d d = d
      apply assoc_ext _ _ (nodup_keysOf_deepMerge d d hdnd hdnd)
      · rw [keysOf_deepMerge d d hdnd, filter_not_isSome_self, List.append_nil]
      · intro k
        rw [getKey_deepMerge d d hdnd k]
        cases hdk : getKey d k with
        | none => simp
        | some v =>
          dsimp only
          by_cases hvobj : ∃ vf, v = Json.obj vf
          · obtain ⟨vf, rfl⟩ := hvobj
            have hvnd : wfDoc vf = true := by
              have h1 := nodupDeep_of_getKey d k _ (wfDoc_fields d hd) hdk
              rwa [nodupDeep_obj] at h1
            have hszv : sizeOf vf < m := by
              have h1 := getKey_sizeOf d k _ hdk
              have h2 : sizeOf (Json.obj vf) = 1 + sizeOf vf := by simp
              omega
            rw [mergeOne_obj_obj, (ih vf vf hszv hvnd hvnd).1]
          · rw [mergeOne_not_obj_right _ _ (fun vf h => hvobj ⟨vf, h⟩)]
    · -- deepMerge d (deepMerge d X) = deepMerge d X
      have hMnd : (keysOf (deepMerge d X)).Nodup := nodup_keysOf_deepMerge d X hdnd hXnd
      apply assoc_ext _ _ (nodup_keysOf_deepMerge d (deepMerge d X) hdnd hMnd)
      · rw [keysOf_deepMerge (deepMerge d X) d hMnd, keysOf_deepMerge X d hXnd,
          List.filter_append, filter_not_isSome_self, List.nil_append,
          List.filter_filter]
        simp only [Bool.and_self]
      · intro k
        rw [getKey_deepMerge (deepMerge d X) d hMnd k]
        have hM2 := getKey_deepMerge X d hXnd k
        cases hMk : getKey (deepMerge d X) k with
        | none =>
          rw [hMk] at hM2
          dsimp only
          cases hdk : getKey d k with
          | none => rfl
          | some w =>
            exfalso
            cases hXk : getKey X k with
            | none =>
              rw [hXk, hdk] at hM2
              dsimp only at hM2
              cases hM2
            | some xv =>
              rw [hXk] at hM2
              dsimp only at hM2
              cases hM2
        | some v =>
          rw [hMk] at hM2
          dsimp only
          cases hdk : getKey d k with
          | none => rw [mergeOne_not_obj_left _ _ (fun wf h => by cases h)]
          | some w =>
            by_cases hwobj : ∃ wf, w = Json.obj wf
            · obtain ⟨wf, rfl⟩ := hwobj
              have hwnd : wfDoc wf = true := by
                have h1 := nodupDeep_of_getKey d k _ (wfDoc_fields d hd) hdk
                rwa [nodupDeep_obj] at h1
              have hszw : sizeOf wf < m := by
                have h1 := getKey_sizeOf d k _ hdk
                have h2 : sizeOf (Json.obj wf) = 1 + sizeOf wf := by simp
                omega
              by_cases hvobj : ∃ vf, v = Json.obj vf
              · obtain ⟨vf, rfl⟩ := hvobj
                rw [mergeOne_obj_obj]
                cases hXk : getKey X k with
                | none =>
                  rw [hXk, hdk] at hM2
                  dsimp only at hM2
                  have hwv : Json.obj vf = Json.obj wf := by
                    injection hM2.symm with h3
                    exact h3.symm
                  have hvw : vf = wf := by injection hwv
                  subst hvw
                  rw [(ih vf vf hszw hwnd hwnd).1]
                | some xv =>
                  rw [hXk, hdk] at hM2
                  dsimp only at hM2
                  by_cases hxvobj : ∃ xvf, xv = Json.obj xvf
                  · obtain ⟨xvf, rfl⟩ := hxvobj
                    rw [mergeOne_obj_obj] at hM2
                    have hxnd : wfDoc xvf = true := by
                      have h1 := nodupDeep_of_getKey X k _ (wfDoc_fields X hX) hXk
                      rwa [nodupDeep_obj] at h1
                    have hveq : vf = deepMerge wf xvf := by
                      injection hM2.symm with h3
                      injection h3 with h4
                      exact h4.symm
                    subst hveq
                    rw [(ih wf xvf hszw hwnd hxnd).2]
                  · rw [mergeOne_not_obj_right _ _ (fun xvf h => hxvobj ⟨xvf, h⟩)] at hM2
                    exfalso
                    apply hxvobj
                    exact ⟨vf, by injection hM2.symm⟩
              · rw [mergeOne_not_obj_right _ _ (fun vf h => hvobj ⟨vf, h⟩)]
            · rw [mergeOne_not_obj_left _ _
                (fun wf h => hwobj ⟨wf, by injection h⟩)]

/-- C9: the deep merge of `_deep_merge` (a pure function — the source
`deepcopy`s the defaults, so the defaults argument is never mutated)
satisfies, for documents without duplicate keys: the per-key
characterisation (recurse exactly on keys where both sides hold a mapping,
override wins otherwise), `merge(defaults, {}) = defaults`, and
`merge(defaults, merge(defaults, X)) = merge(defaults, X)`. -/
theorem deep_merge_laws (defaults X : Fields)
    (hd : wfDoc defaults = true) (hX : wfDoc X = true) :
    deepMerge defaults [] = defaults ∧
    (∀ k, getKey (deepMerge defaults X) k =
      match getKey X k with
      | none => getKey defaults k
      | some v => some (mergeOne (getKey defaults k) v)) ∧
    deepMerge defaults (deepMerge defaults X) = deepMerge defaults X := by
  refine ⟨deepMerge_nil defaults, getKey_deepMerge X defaults (wfDoc_nodup X hX), ?_⟩
  exact (deepMerge_main (sizeOf defaults + 1) defaults X (by omega) hd hX).2

/-- C9 (witness): the laws applied to a concrete defaults document with a
nested mapping and a concrete override. -/
theorem deep_merge_laws_witness :
    deepMerge dExample [] = dExample ∧
    deepMerge dExample (deepMerge dExample xExample) = deepMerge dExample xExample := by
  have h := deep_merge_laws dExample xExample
    (by simp [wfDoc, dExample, nodupDeepFields, nodupDeep, keysOf])
    (by simp [wfDoc, xExample, nodupDeepFields, nodupDeep, keysOf])
  exact ⟨h.1, h.2.2⟩
